import Mathlib

/-!
Verification of the pika AMQP client core (src/pika/table.py and
src/pika/connection.py) against its natural-language specification.

Conventions of the embedding:
* Python byte strings are `List Nat` (each element a byte value).
* Python ints are `Int`; machine-width packing is explicit (`% 2^32` etc.).
* `struct.pack` with a standard (big-endian) format raises `struct.error`
  on out-of-range values in the Python the source targets; packing is
  therefore modelled as `Option` returning `none` out of range.
* Fallible decoding returns `Option`.
-/

set_option maxRecDepth 4000

namespace Pika

/-! ### struct pack/unpack helpers (big-endian, as used by table.py) -/

/-- Big-endian 4-byte representation of a natural number below 2^32
(the payload bytes produced by `struct.pack` format `>I` / `>i`). -/
def u32be (n : Nat) : List Nat :=
  [n / 16777216 % 256, n / 65536 % 256, n / 256 % 256, n % 256]

/-- Big-endian 8-byte representation of a natural number below 2^64
(`struct.pack` format `>Q`). -/
def u64be (n : Nat) : List Nat :=
  u32be (n / 4294967296) ++ u32be (n % 4294967296)

/-- The `struct.pack` format `B`: one unsigned byte; raises out of range. -/
def packU8 (n : Nat) : Option (List Nat) :=
  if n ≤ 255 then some [n] else none

/-- The `struct.pack` format `>I`: unsigned 32-bit; raises out of range. -/
def packU32 (n : Int) : Option (List Nat) :=
  if 0 ≤ n ∧ n < 4294967296 then some (u32be n.toNat) else none

/-- The `struct.pack` format `>i`: signed 32-bit two's complement;
raises out of range. -/
def packI32 (n : Int) : Option (List Nat) :=
  if -2147483648 ≤ n ∧ n ≤ 2147483647 then some (u32be (n % 4294967296).toNat)
  else none

/-- The `struct.pack` format `>Q`: unsigned 64-bit; raises out of range. -/
def packU64 (n : Int) : Option (List Nat) :=
  if 0 ≤ n ∧ n < 18446744073709551616 then some (u64be n.toNat) else none

/-- The `struct.unpack_from` format `>I`: reads four big-endian bytes;
raises (`none`) when fewer than four bytes remain. -/
def readU32 : List Nat → Option Nat
  | a :: b :: c :: d :: _ => some (a * 16777216 + b * 65536 + c * 256 + d)
  | _ => none

/-- The `struct.unpack_from` format `>Q`: reads eight big-endian bytes. -/
def readU64 : List Nat → Option Nat
  | a :: b :: c :: d :: e :: f :: g :: h :: _ =>
      some (((a * 16777216 + b * 65536 + c * 256 + d) : Nat) * 4294967296 +
            (e * 16777216 + f * 65536 + g * 256 + h))
  | _ => none

theorem readU32_u32be (n : Nat) (h : n < 4294967296) (rest : List Nat) :
    readU32 (u32be n ++ rest) = some n := by
  simp only [u32be, List.cons_append, List.nil_append, readU32, Option.some.injEq]
  omega

theorem readU64_u64be (n : Nat) (h : n < 18446744073709551616) (rest : List Nat) :
    readU64 (u64be n ++ rest) = some n := by
  simp only [u64be, u32be, List.cons_append, List.nil_append, readU64, Option.some.injEq]
  omega

/-! ### The field-table value model (src/pika/table.py)

A Python value storable in an AMQP field table, as `encode_table`
dispatches on it: `str`, `int`, `decimal.Decimal` (held as
coefficient × 10 ^ exponent), `datetime.datetime` (held as the POSIX
seconds `calendar.timegm(value.utctimetuple())` would produce),
`dict` (held as its association list in iteration order) and `list`. -/

inductive PyValue where
  | str (s : List Nat)
  | int (n : Int)
  | dec (coeff : Int) (exp : Int)
  | time (t : Int)
  | table (xs : List (List Nat × PyValue))
  | arr (vs : List PyValue)

/-- The recursion of `decimal.Decimal.normalize`: strip trailing zero
digits from the coefficient (raising the exponent), and canonicalise
zero to coefficient 0, exponent 0.  (Context-precision rounding never
fires for the ≤ 10-digit coefficients the codec can emit.) -/
def normalizeDec (c e : Int) : Int × Int :=
  if c = 0 then (0, 0)
  else if c % 10 = 0 then normalizeDec (c / 10) (e + 1)
  else (c, e)
  termination_by c.natAbs
  decreasing_by
    simp_wf
    omega

mutual

/-- Encoding of one table value: the tag byte plus the value bytes, as
appended by the body of `encode_table`'s per-kind branches
(src/pika/table.py lines 68-114).  `none` models a raised exception. -/
def encodeValue : PyValue → Option (List Nat)
  | .str s => (packU32 s.length).map (fun b => 83 :: b ++ s)
  | .int n => (packU32 n).map (fun b => 73 :: b)
  | .dec c e =>
      let n := normalizeDec c e
      if n.2 < 0 then
        (packU8 (-n.2).toNat).bind fun d =>
          (packI32 n.1).map fun r => 68 :: (d ++ r)
      else
        (packU32 (n.1 * 10 ^ n.2.toNat)).map (fun b => 68 :: 0 :: b)
  | .time t => (packU64 t).map (fun b => 84 :: b)
  | .table xs => (encode_table xs).map (fun b => 70 :: b)
  | .arr vs =>
      (encodeItems vs).bind fun p =>
        (packU32 p.length).map fun hdr => 65 :: (hdr ++ p)
  termination_by v => 2 * sizeOf v

/-- Encoding of the elements of a Python list value: the source runs
`encode_table(p, v)` on every element, so each element must itself be
a dict; any other element raises (`none`). -/
def encodeItems : List PyValue → Option (List Nat)
  | [] => some []
  | .table xs :: vs =>
      (encode_table xs).bind fun b =>
        (encodeItems vs).map fun r => b ++ r
  | _ :: _ => none
  termination_by vs => 2 * sizeOf vs

/-- Encoding of the `keylen | key | tag | value` records of a table, in
iteration order (the `for (key, value) in table.iteritems()` loop). -/
def encodeEntries : List (List Nat × PyValue) → Option (List Nat)
  | [] => some []
  | (k, v) :: xs =>
      (packU8 k.length).bind fun kl =>
        (encodeValue v).bind fun vb =>
          (encodeEntries xs).map fun r => kl ++ k ++ vb ++ r
  termination_by xs => 2 * sizeOf xs

/-- `encode_table` (src/pika/table.py lines 57-117): a 4-byte big-endian
byte count followed by the entry records.  The running `tablesize` the
source maintains equals the byte length of the appended entry pieces,
branch by branch, so the length prefix is the entry bytes' length. -/
def encode_table (xs : List (List Nat × PyValue)) : Option (List Nat) :=
  (encodeEntries xs).bind fun e =>
    (packU32 e.length).map fun hdr => hdr ++ e
  termination_by 2 * sizeOf xs + 1

end

/-! ### decode_table (src/pika/table.py lines 120-180)

The source walks one byte string with an `offset` cursor; the embedding
consumes suffixes instead and returns, with each result, the number of
bytes the source's offset arithmetic advances (which can pass the end
of the input when a clamped Python slice read the final bytes).  The
`while offset < limit` loop of the table body, and the
`while offset < offset_end` loop of the array case, are rendered with
an `Int` byte budget standing for `limit - offset`.  Recursion is
bounded by an explicit fuel; the wrapper `decode_table` supplies fuel
that is ample for any input (each nested call consumes input bytes). -/

mutual

/-- One `decode_table` activation: read the 4-byte table size, then the
entry loop over that many bytes.  Returns the decoded association list
(insertion order equals parse order) and the bytes consumed. -/
def decTable : Nat → List Nat → Option (List (List Nat × PyValue) × Nat)
  | 0, _ => none
  | fuel + 1, input =>
      (readU32 input).bind fun (n : Nat) =>
        (decEntries fuel (n : Int) (input.drop 4)).map fun r =>
          (r.1, 4 + r.2)

/-- The `while offset < limit` entry loop: read a 1-byte key length, the
key (a clamping slice), the tag byte, the value, then continue with the
budget reduced by the bytes the entry consumed. -/
def decEntries : Nat → Int → List Nat → Option (List (List Nat × PyValue) × Nat)
  | 0, _, _ => none
  | fuel + 1, budget, input =>
      if budget ≤ 0 then some ([], 0)
      else
        input.head?.bind fun kl =>
          (input.drop (1 + kl)).head?.bind fun tag =>
            (decValue fuel tag (input.drop (2 + kl))).bind fun v =>
              (decEntries fuel (budget - ((2 + kl + v.2 : Nat) : Int))
                  (input.drop (2 + kl + v.2))).map fun r =>
                (((input.drop 1).take kl, v.1) :: r.1, (2 + kl + v.2) + r.2)

/-- Decoding of one tagged value, given the tag byte (83=`S`, 73=`I`,
68=`D`, 84=`T`, 70=`F`, 65=`A`).  An unknown tag raises
`InvalidTableError` (`none`); tag `T` raises when
`datetime.datetime.utcfromtimestamp` cannot represent the value
(seconds of year 10000 or later). -/
def decValue : Nat → Nat → List Nat → Option (PyValue × Nat)
  | 0, _, _ => none
  | fuel + 1, tag, input =>
      if tag = 83 then
        (readU32 input).map fun (n : Nat) => (.str ((input.drop 4).take n), 4 + n)
      else if tag = 73 then
        (readU32 input).map fun (n : Nat) => (.int (n : Int), 4)
      else if tag = 68 then
        input.head?.bind fun (d : Nat) =>
          (readU32 (input.drop 1)).map fun (r : Nat) =>
            (.dec (r : Int) (-(d : Int)), 5)
      else if tag = 84 then
        (readU64 input).bind fun (t : Nat) =>
          if t < 253402300800 then some (.time (t : Int), 8) else none
      else if tag = 70 then
        (decTable fuel input).map fun r => (.table r.1, r.2)
      else if tag = 65 then
        (readU32 input).bind fun (n : Nat) =>
          (decArrItems fuel (n : Int) (input.drop 4)).map fun r =>
            (.arr r.1, 4 + r.2)
      else none

/-- The `while offset < offset_end` array loop: decode sub-tables until
the budget is spent; a final cursor not exactly on `offset_end` raises
`TableDecodingError` (`none`). -/
def decArrItems : Nat → Int → List Nat → Option (List PyValue × Nat)
  | 0, _, _ => none
  | fuel + 1, budget, input =>
      if budget ≤ 0 then (if budget = 0 then some ([], 0) else none)
      else
        (decTable fuel input).bind fun t =>
          (decArrItems fuel (budget - (t.2 : Int)) (input.drop t.2)).map fun r =>
            (.table t.1 :: r.1, t.2 + r.2)

end

/-- Fuel that is ample for decoding any input of the given length: every
chain of nested calls consumes input, so `2 * length + 8` bounds it. -/
def decodeFuel (encoded : List Nat) : Nat := 2 * encoded.length + 8

/-- `decode_table` (src/pika/table.py lines 120-180): decode one table
from `encoded` starting at byte `offset`; return the decoded mapping and
the new offset. -/
def decode_table (encoded : List Nat) (offset : Nat) :
    Option (List (List Nat × PyValue) × Nat) :=
  (decTable (decodeFuel encoded) (encoded.drop offset)).map
    (fun p => (p.1, offset + p.2))

/-! ### The value a successful decode reconstructs, and Python equality -/

mutual

/-- The value `decode_table` reconstructs for an encoded value: strings,
integers in range, timestamps and structures come back unchanged, while
a decimal comes back as the normalized pair (negative exponent) or as
the expanded integer with exponent 0 (non-negative exponent). -/
def decodedValue : PyValue → PyValue
  | .str s => .str s
  | .int n => .int n
  | .dec c e =>
      let n := normalizeDec c e
      if n.2 < 0 then .dec n.1 n.2 else .dec (n.1 * 10 ^ n.2.toNat) 0
  | .time t => .time t
  | .table xs => .table (decodedTable xs)
  | .arr vs => .arr (decodedItems vs)

/-- `decodedValue` mapped over a table's entries, keys unchanged. -/
def decodedTable : List (List Nat × PyValue) → List (List Nat × PyValue)
  | [] => []
  | (k, v) :: xs => (k, decodedValue v) :: decodedTable xs

/-- `decodedValue` mapped over an array's elements. -/
def decodedItems : List PyValue → List PyValue
  | [] => []
  | v :: vs => decodedValue v :: decodedItems vs

end

/-- Python's numeric `==` on two `decimal.Decimal` values
`c1 × 10 ^ e1` and `c2 × 10 ^ e2`: align to the smaller exponent and
compare coefficients. -/
def decNumEq (c1 e1 c2 e2 : Int) : Bool :=
  c1 * 10 ^ (e1 - min e1 e2).toNat == c2 * 10 ^ (e2 - min e1 e2).toNat

mutual

/-- Python's `==` between two table values: structural except on
decimals, where `==` is numeric.  On tables this embedding compares
entries pointwise in order, which is sufficient for (and, with distinct
keys, implied by) Python's order-insensitive dict equality whenever the
two tables list their keys in the same order — as an encode/decode
round trip does. -/
def pyEq : PyValue → PyValue → Bool
  | .str a, .str b => a == b
  | .int a, .int b => a == b
  | .dec c1 e1, .dec c2 e2 => decNumEq c1 e1 c2 e2
  | .time a, .time b => a == b
  | .table xs, .table ys => pyEqEntries xs ys
  | .arr a, .arr b => pyEqItems a b
  | _, _ => false

/-- Pointwise `pyEq` over table entries (keys compared structurally). -/
def pyEqEntries : List (List Nat × PyValue) → List (List Nat × PyValue) → Bool
  | [], [] => true
  | (k1, v1) :: xs, (k2, v2) :: ys => k1 == k2 && pyEq v1 v2 && pyEqEntries xs ys
  | _, _ => false

/-- Pointwise `pyEq` over array elements. -/
def pyEqItems : List PyValue → List PyValue → Bool
  | [], [] => true
  | v :: vs, w :: ws => pyEq v w && pyEqItems vs ws
  | _, _ => false

end

mutual

/-- The conditions beyond encodability under which a value survives the
codec: a decimal's normalized coefficient must be non-negative (the
source packs it signed but unpacks it unsigned), and a timestamp must
be representable by `datetime.datetime.utcfromtimestamp` (before the
year 10000).  Everything else that could go wrong already raises in
`encode_table` itself. -/
def wfValue : PyValue → Bool
  | .str _ => true
  | .int _ => true
  | .dec c e => decide (0 ≤ (normalizeDec c e).1)
  | .time t => decide (t < 253402300800)
  | .table xs => wfEntries xs
  | .arr vs => wfItems vs

/-- `wfValue` over a table's entries. -/
def wfEntries : List (List Nat × PyValue) → Bool
  | [] => true
  | (_, v) :: xs => wfValue v && wfEntries xs

/-- `wfValue` over an array's elements. -/
def wfItems : List PyValue → Bool
  | [] => true
  | v :: vs => wfValue v && wfItems vs

end

/-! ### Facts about normalization -/

theorem normalizeDec_zero (c e : Int) (h : c = 0) : normalizeDec c e = (0, 0) := by
  rw [normalizeDec, if_pos h]

theorem normalizeDec_spec (c e : Int) : c ≠ 0 →
    e ≤ (normalizeDec c e).2 ∧
      c = (normalizeDec c e).1 * 10 ^ ((normalizeDec c e).2 - e).toNat := by
  induction c, e using normalizeDec.induct with
  | case1 e => intro h; exact absurd rfl h
  | case2 c e h0 h10 ih =>
      intro _
      rw [normalizeDec, if_neg h0, if_pos h10]
      have hd : c / 10 ≠ 0 := by omega
      obtain ⟨ih1, ih2⟩ := ih hd
      constructor
      · omega
      · have hc : c = 10 * (c / 10) := by omega
        set m := normalizeDec (c / 10) (e + 1) with hm
        have hexp : (m.2 - e).toNat = (m.2 - (e + 1)).toNat + 1 := by omega
        rw [hexp, pow_succ]
        calc c = 10 * (c / 10) := hc
          _ = 10 * (m.1 * 10 ^ (m.2 - (e + 1)).toNat) := by rw [← ih2]
          _ = m.1 * (10 ^ (m.2 - (e + 1)).toNat * 10) := by ring
  | case3 c e h0 h10 =>
      intro _
      rw [normalizeDec, if_neg h0, if_neg h10]
      simp

/-! ### Inversion lemmas for the packing helpers -/

theorem packU8_inv {n : Nat} {b : List Nat} (h : packU8 n = some b) :
    n ≤ 255 ∧ b = [n] := by
  by_cases hc : n ≤ 255 <;> simp [packU8, hc] at h <;> exact ⟨hc, h.symm⟩

theorem packU32_inv {n : Int} {b : List Nat} (h : packU32 n = some b) :
    0 ≤ n ∧ n < 4294967296 ∧ b = u32be n.toNat := by
  by_cases hc : 0 ≤ n ∧ n < 4294967296 <;> simp [packU32, hc] at h
  exact ⟨hc.1, hc.2, h.symm⟩

theorem packI32_inv {n : Int} {b : List Nat} (h : packI32 n = some b) :
    -2147483648 ≤ n ∧ n ≤ 2147483647 ∧ b = u32be ((n % 4294967296).toNat) := by
  by_cases hc : -2147483648 ≤ n ∧ n ≤ 2147483647 <;> simp [packI32, hc] at h
  exact ⟨hc.1, hc.2, h.symm⟩

theorem packU64_inv {n : Int} {b : List Nat} (h : packU64 n = some b) :
    0 ≤ n ∧ n < 18446744073709551616 ∧ b = u64be n.toNat := by
  by_cases hc : 0 ≤ n ∧ n < 18446744073709551616 <;> simp [packU64, hc] at h
  exact ⟨hc.1, hc.2, h.symm⟩

theorem u32be_length (n : Nat) : (u32be n).length = 4 := rfl

theorem u64be_length (n : Nat) : (u64be n).length = 8 := rfl

/-- Every encoded value starts with its tag byte. -/
theorem encodeValue_shape {v : PyValue} {b : List Nat}
    (h : encodeValue v = some b) : ∃ tag pl, b = tag :: pl := by
  cases v with
  | str s =>
      rw [encodeValue] at h
      simp only [Option.map_eq_some'] at h
      obtain ⟨w, hw, hb⟩ := h
      exact ⟨83, w ++ s, hb.symm⟩
  | int n =>
      rw [encodeValue] at h
      simp only [Option.map_eq_some'] at h
      obtain ⟨w, hw, hb⟩ := h
      exact ⟨73, w, hb.symm⟩
  | dec c e =>
      rw [encodeValue] at h
      by_cases hneg : (normalizeDec c e).2 < 0
      · rw [if_pos hneg] at h
        simp only [Option.bind_eq_some, Option.map_eq_some'] at h
        obtain ⟨d, hd, r, hr, hb⟩ := h
        exact ⟨68, d ++ r, hb.symm⟩
      · rw [if_neg hneg] at h
        simp only [Option.map_eq_some'] at h
        obtain ⟨w, hw, hb⟩ := h
        exact ⟨68, 0 :: w, hb.symm⟩
  | time t =>
      rw [encodeValue] at h
      simp only [Option.map_eq_some'] at h
      obtain ⟨w, hw, hb⟩ := h
      exact ⟨84, w, hb.symm⟩
  | table xs =>
      rw [encodeValue] at h
      simp only [Option.map_eq_some'] at h
      obtain ⟨w, hw, hb⟩ := h
      exact ⟨70, w, hb.symm⟩
  | arr vs =>
      rw [encodeValue] at h
      simp only [Option.bind_eq_some, Option.map_eq_some'] at h
      obtain ⟨p, hp, w, hq, hb⟩ := h
      exact ⟨65, w ++ p, hb.symm⟩

theorem encode_table_inv {xs : List (List Nat × PyValue)} {B : List Nat}
    (h : encode_table xs = some B) :
    ∃ E, encodeEntries xs = some E ∧ (E.length : Int) < 4294967296 ∧
      B = u32be E.length ++ E := by
  rw [encode_table] at h
  simp only [Option.bind_eq_some, Option.map_eq_some'] at h
  obtain ⟨E, hE, w, hw, hB⟩ := h
  obtain ⟨_, hlt, hweq⟩ := packU32_inv hw
  refine ⟨E, hE, hlt, ?_⟩
  rw [← hB, hweq]
  simp

/-- The length prefix makes every encoded table at least 4 bytes long. -/
theorem encode_table_length {xs : List (List Nat × PyValue)} {B : List Nat}
    (h : encode_table xs = some B) : 4 ≤ B.length := by
  obtain ⟨E, _, _, hB⟩ := encode_table_inv h
  subst hB
  simp only [List.length_append, u32be_length]
  omega

/-! ### Decode of encode: the round-trip induction -/

theorem drop_one_add_cons {α : Type} (n : Nat) (a : α) (l : List α) :
    (a :: l).drop (1 + n) = l.drop n := by
  rw [Nat.add_comm]
  rfl

theorem drop_two_add_cons {α : Type} (n : Nat) (a : α) (l : List α) :
    (a :: l).drop (2 + n) = l.drop (1 + n) := by
  have h : 2 + n = (1 + n) + 1 := by omega
  rw [h]
  rfl

theorem drop_len_append {α : Type} (k X : List α) : (k ++ X).drop k.length = X :=
  List.drop_left k X

theorem drop_len_add_append {α : Type} (n : Nat) (k X : List α) :
    (k ++ X).drop (k.length + n) = X.drop n := by
  induction k with
  | nil => simp
  | cons a k ih => simpa [Nat.succ_add] using ih

theorem take_len_append {α : Type} (k X : List α) : (k ++ X).take k.length = k :=
  List.take_left k X

theorem drop4_u32be (n : Nat) (X : List Nat) : (u32be n ++ X).drop 4 = X := rfl

theorem drop_key (a tg : Nat) (k Y : List Nat) :
    (a :: (k ++ (tg :: Y))).drop (2 + k.length) = Y := by
  rw [drop_two_add_cons, Nat.add_comm, drop_len_add_append]
  rfl

theorem head_tag (a tg : Nat) (k Y : List Nat) :
    ((a :: (k ++ (tg :: Y))).drop (1 + k.length)).head? = some tg := by
  rw [drop_one_add_cons, drop_len_append]
  rfl

theorem take_key (a tg : Nat) (k Y : List Nat) :
    ((a :: (k ++ (tg :: Y))).drop 1).take k.length = k := by
  simp only [List.drop_succ_cons, List.drop_zero, take_len_append]

theorem drop_entry (a tg : Nat) (k pl Y : List Nat) :
    (a :: (k ++ (tg :: (pl ++ Y)))).drop (2 + k.length + pl.length) = Y := by
  rw [show 2 + k.length + pl.length = 1 + (k.length + (1 + pl.length)) from by omega]
  rw [drop_one_add_cons, drop_len_add_append, drop_one_add_cons, drop_len_append]

mutual

/-- Decoding an encoded value at the head of the stream succeeds,
consumes exactly the value's bytes, and yields `decodedValue`. -/
theorem decValue_encodeValue (v : PyValue) :
    ∀ (tag : Nat) (pl rest : List Nat) (fuel : Nat),
      encodeValue v = some (tag :: pl) → wfValue v = true →
      pl.length + 1 < fuel →
      decValue fuel tag (pl ++ rest) = some (decodedValue v, pl.length) := by
  cases v with
  | str s =>
      intro tag pl rest fuel henc hwf hfuel
      rw [encodeValue] at henc
      simp only [Option.map_eq_some'] at henc
      obtain ⟨w, hw, hb⟩ := henc
      obtain ⟨hge, hlt, hweq⟩ := packU32_inv hw
      simp only [List.cons_append] at hb
      obtain ⟨htag, hpl⟩ := List.cons.inj hb
      subst htag hpl hweq
      obtain ⟨f, rfl⟩ : ∃ f, fuel = f + 1 := ⟨fuel - 1, by omega⟩
      rw [decValue, if_pos rfl]
      have hlen : ((s.length : Int)).toNat = s.length := by omega
      rw [hlen, List.append_assoc,
        readU32_u32be s.length (by omega) (s ++ rest), Option.map_some',
        drop4_u32be, take_len_append, decodedValue]
      simp [u32be_length]
  | int n =>
      intro tag pl rest fuel henc hwf hfuel
      rw [encodeValue] at henc
      simp only [Option.map_eq_some'] at henc
      obtain ⟨w, hw, hb⟩ := henc
      obtain ⟨hge, hlt, hweq⟩ := packU32_inv hw
      obtain ⟨htag, hpl⟩ := List.cons.inj hb
      subst htag hpl hweq
      obtain ⟨f, rfl⟩ : ∃ f, fuel = f + 1 := ⟨fuel - 1, by omega⟩
      rw [decValue, if_neg (by decide), if_pos rfl]
      rw [readU32_u32be n.toNat (by omega) rest, Option.map_some', decodedValue,
        Int.toNat_of_nonneg hge]
      simp [u32be_length]
  | dec c e =>
      intro tag pl rest fuel henc hwf hfuel
      rw [encodeValue] at henc
      have hwf' : 0 ≤ (normalizeDec c e).1 := of_decide_eq_true hwf
      by_cases hneg : (normalizeDec c e).2 < 0
      · rw [if_pos hneg] at henc
        simp only [Option.bind_eq_some, Option.map_eq_some'] at henc
        obtain ⟨d, hd, r, hr, hb⟩ := henc
        obtain ⟨hd255, hdeq⟩ := packU8_inv hd
        obtain ⟨hrlo, hrhi, hreq⟩ := packI32_inv hr
        have hmod : (normalizeDec c e).1 % 4294967296 = (normalizeDec c e).1 := by
          omega
        rw [hmod] at hreq
        obtain ⟨htag, hpl⟩ := List.cons.inj hb
        subst htag hpl hdeq hreq
        obtain ⟨f, rfl⟩ : ∃ f, fuel = f + 1 := ⟨fuel - 1, by omega⟩
        rw [decValue, if_neg (by decide), if_neg (by decide), if_pos rfl]
        simp only [List.cons_append, List.nil_append, List.head?_cons,
          Option.some_bind, List.drop_succ_cons, List.drop_zero]
        rw [readU32_u32be (normalizeDec c e).1.toNat (by omega) rest,
          Option.map_some', decodedValue]
        simp only [if_pos hneg]
        rw [Int.toNat_of_nonneg hwf',
          Int.toNat_of_nonneg (show (0:Int) ≤ -(normalizeDec c e).2 by omega),
          neg_neg]
        simp [u32be_length]
      · rw [if_neg hneg] at henc
        simp only [Option.map_eq_some'] at henc
        obtain ⟨w, hw, hb⟩ := henc
        obtain ⟨hge, hlt, hweq⟩ := packU32_inv hw
        obtain ⟨htag, hpl⟩ := List.cons.inj hb
        subst htag hpl hweq
        obtain ⟨f, rfl⟩ : ∃ f, fuel = f + 1 := ⟨fuel - 1, by omega⟩
        rw [decValue, if_neg (by decide), if_neg (by decide), if_pos rfl]
        simp only [List.cons_append, List.head?_cons, Option.some_bind,
          List.drop_succ_cons, List.drop_zero]
        rw [readU32_u32be _ (by omega) rest, Option.map_some', decodedValue]
        simp only [if_neg hneg]
        rw [Int.toNat_of_nonneg hge]
        simp [u32be_length]
  | time t =>
      intro tag pl rest fuel henc hwf hfuel
      rw [encodeValue] at henc
      have hwf' : t < 253402300800 := of_decide_eq_true hwf
      simp only [Option.map_eq_some'] at henc
      obtain ⟨w, hw, hb⟩ := henc
      obtain ⟨hge, hlt, hweq⟩ := packU64_inv hw
      obtain ⟨htag, hpl⟩ := List.cons.inj hb
      subst htag hpl hweq
      obtain ⟨f, rfl⟩ : ∃ f, fuel = f + 1 := ⟨fuel - 1, by omega⟩
      rw [decValue, if_neg (by decide), if_neg (by decide), if_neg (by decide),
        if_pos rfl]
      rw [readU64_u64be t.toNat (by omega) rest, Option.some_bind,
        if_pos (show t.toNat < 253402300800 by omega), decodedValue,
        Int.toNat_of_nonneg hge]
      simp [u64be_length]
  | table xs =>
      intro tag pl rest fuel henc hwf hfuel
      rw [encodeValue] at henc
      simp only [Option.map_eq_some'] at henc
      obtain ⟨B, hB, hb⟩ := henc
      obtain ⟨htag, hpl⟩ := List.cons.inj hb
      subst htag hpl
      rw [wfValue] at hwf
      obtain ⟨f, rfl⟩ : ∃ f, fuel = f + 1 := ⟨fuel - 1, by omega⟩
      rw [decValue, if_neg (by decide), if_neg (by decide), if_neg (by decide),
        if_neg (by decide), if_pos rfl]
      rw [decTable_encodeTable xs B rest f hB hwf (by omega), Option.map_some',
        decodedValue]
  | arr vs =>
      intro tag pl rest fuel henc hwf hfuel
      rw [encodeValue] at henc
      simp only [Option.bind_eq_some, Option.map_eq_some'] at henc
      obtain ⟨p, hp, w, hw, hb⟩ := henc
      obtain ⟨hge, hlt, hweq⟩ := packU32_inv hw
      obtain ⟨htag, hpl⟩ := List.cons.inj hb
      subst htag hpl hweq
      rw [wfValue] at hwf
      obtain ⟨f, rfl⟩ : ∃ f, fuel = f + 1 := ⟨fuel - 1, by omega⟩
      rw [decValue, if_neg (by decide), if_neg (by decide), if_neg (by decide),
        if_neg (by decide), if_neg (by decide), if_pos rfl]
      have hlen : ((p.length : Int)).toNat = p.length := by omega
      rw [hlen, List.append_assoc, readU32_u32be p.length (by omega) (p ++ rest),
        Option.some_bind, drop4_u32be]
      rw [decArrItems_encodeItems vs p rest f hp hwf
        (by simp only [List.length_append, u32be_length] at hfuel; omega)]
      rw [Option.map_some', decodedValue]
      simp [u32be_length]
  termination_by (2 * sizeOf v, 0)

/-- Decoding the encoded entry records with their exact byte budget
succeeds and reconstructs the entries in order. -/
theorem decEntries_encodeEntries (xs : List (List Nat × PyValue)) :
    ∀ (E rest : List Nat) (fuel : Nat),
      encodeEntries xs = some E → wfEntries xs = true →
      E.length < fuel →
      decEntries fuel (E.length : Int) (E ++ rest) =
        some (decodedTable xs, E.length) := by
  cases xs with
  | nil =>
      intro E rest fuel henc hwf hfuel
      rw [encodeEntries] at henc
      injection henc with hE
      subst hE
      obtain ⟨f, rfl⟩ : ∃ f, fuel = f + 1 := ⟨fuel - 1, by omega⟩
      rw [decEntries, if_pos (by simp), decodedTable]
      simp
  | cons kv tl =>
      obtain ⟨k, v⟩ := kv
      intro E rest fuel henc hwf hfuel
      rw [encodeEntries] at henc
      simp only [Option.bind_eq_some, Option.map_eq_some'] at henc
      obtain ⟨klb, hklb, vb, hvb, r, hr, hE⟩ := henc
      obtain ⟨hk255, hklbeq⟩ := packU8_inv hklb
      obtain ⟨tag, pl, hshape⟩ := encodeValue_shape hvb
      rw [hshape] at hvb
      subst hklbeq hshape
      rw [wfEntries, Bool.and_eq_true] at hwf
      obtain ⟨hwfv, hwftl⟩ := hwf
      subst hE
      have hEl : ([k.length] ++ k ++ (tag :: pl) ++ r).length =
          2 + k.length + pl.length + r.length := by
        simp [List.length_append]
        omega
      obtain ⟨f, rfl⟩ : ∃ f, fuel = f + 1 := ⟨fuel - 1, by omega⟩
      rw [decEntries, if_neg (by rw [hEl]; push_cast; omega)]
      simp only [List.cons_append, List.nil_append, List.append_assoc,
        List.head?_cons, Option.some_bind]
      rw [head_tag, Option.some_bind]
      rw [drop_key, decValue_encodeValue v tag pl (r ++ rest) f hvb hwfv
        (by rw [hEl] at hfuel; omega)]
      rw [Option.some_bind]
      dsimp only
      rw [drop_entry]
      have hEl2 : (k.length :: (k ++ tag :: (pl ++ r))).length =
          2 + k.length + pl.length + r.length := by
        simp [List.length_append]
        omega
      have hbud : ((((k.length :: (k ++ tag :: (pl ++ r))).length : Nat)) : Int) -
          ((2 + k.length + pl.length : Nat) : Int) = (r.length : Int) := by
        rw [hEl2]; push_cast; omega
      rw [hbud]
      rw [decEntries_encodeEntries tl r rest f hr hwftl (by rw [hEl] at hfuel; omega)]
      rw [Option.map_some', take_key, decodedTable]
      rw [hEl2]
  termination_by (2 * sizeOf xs, 0)

/-- Decoding an encoded table at the head of the stream succeeds,
consumes exactly the table's bytes, and reconstructs the entries. -/
theorem decTable_encodeTable (xs : List (List Nat × PyValue)) :
    ∀ (B rest : List Nat) (fuel : Nat),
      encode_table xs = some B → wfEntries xs = true →
      B.length < fuel →
      decTable fuel (B ++ rest) = some (decodedTable xs, B.length) := by
  intro B rest fuel henc hwf hfuel
  obtain ⟨E, hE, hlt, hB⟩ := encode_table_inv henc
  subst hB
  obtain ⟨f, rfl⟩ : ∃ f, fuel = f + 1 := ⟨fuel - 1, by omega⟩
  rw [decTable, List.append_assoc, readU32_u32be E.length (by omega) (E ++ rest),
    Option.some_bind, drop4_u32be]
  rw [decEntries_encodeEntries xs E rest f hE hwf
    (by simp only [List.length_append, u32be_length] at hfuel; omega)]
  rw [Option.map_some']
  simp [u32be_length]
  termination_by (2 * sizeOf xs, 1)

/-- Decoding the encoded elements of an array with their exact byte
budget succeeds and reconstructs the element tables in order. -/
theorem decArrItems_encodeItems (vs : List PyValue) :
    ∀ (Bs rest : List Nat) (fuel : Nat),
      encodeItems vs = some Bs → wfItems vs = true →
      Bs.length + 1 < fuel →
      decArrItems fuel (Bs.length : Int) (Bs ++ rest) =
        some (decodedItems vs, Bs.length) := by
  cases vs with
  | nil =>
      intro Bs rest fuel henc hwf hfuel
      rw [encodeItems] at henc
      injection henc with hB
      subst hB
      obtain ⟨f, rfl⟩ : ∃ f, fuel = f + 1 := ⟨fuel - 1, by omega⟩
      rw [decArrItems, if_pos (by simp), if_pos (by simp), decodedItems]
      simp
  | cons v tl =>
      intro Bs rest fuel henc hwf hfuel
      cases v with
      | table ys =>
          rw [encodeItems] at henc
          simp only [Option.bind_eq_some, Option.map_eq_some'] at henc
          obtain ⟨B, hB, r, hr, hBs⟩ := henc
          rw [wfItems, Bool.and_eq_true] at hwf
          rw [wfValue] at hwf
          obtain ⟨hwfv, hwftl⟩ := hwf
          subst hBs
          have h4 : 4 ≤ B.length := encode_table_length hB
          obtain ⟨f, rfl⟩ : ∃ f, fuel = f + 1 := ⟨fuel - 1, by omega⟩
          rw [decArrItems,
            if_neg (by simp only [List.length_append]; push_cast; omega)]
          rw [List.append_assoc,
            decTable_encodeTable ys B (r ++ rest) f hB hwfv
              (by simp only [List.length_append] at hfuel; omega)]
          rw [Option.some_bind, drop_len_append]
          have hbud : (((B ++ r).length : Int)) - ((B.length : Nat) : Int) =
              (r.length : Int) := by
            simp only [List.length_append]; push_cast; omega
          rw [hbud]
          rw [decArrItems_encodeItems tl r rest f hr hwftl
            (by simp only [List.length_append] at hfuel; omega)]
          rw [Option.map_some', decodedItems, decodedValue]
          simp [List.length_append]
      | str s => simp [encodeItems] at henc
      | int n => simp [encodeItems] at henc
      | dec c e => simp [encodeItems] at henc
      | time t => simp [encodeItems] at henc
      | arr ws => simp [encodeItems] at henc
  termination_by (2 * sizeOf vs, 0)

end

/-- Decoding an encoding from offset 0 through the `decode_table`
wrapper: the fuel the wrapper supplies is always sufficient. -/
theorem decode_table_encode_table {xs : List (List Nat × PyValue)} {B : List Nat}
    (henc : encode_table xs = some B) (hwf : wfEntries xs = true) :
    decode_table B 0 = some (decodedTable xs, B.length) := by
  rw [decode_table, List.drop_zero]
  have h := decTable_encodeTable xs B [] (decodeFuel B) henc hwf
    (by rw [decodeFuel]; omega)
  rw [List.append_nil] at h
  rw [h]
  simp

/-! ### The decoded table is Python-equal to the original -/

theorem decodedValue_dec_pyEq (c e : Int) :
    pyEq (decodedValue (.dec c e)) (.dec c e) = true := by
  rw [decodedValue]
  by_cases h0 : c = 0
  · subst h0
    rw [normalizeDec_zero 0 e rfl]
    norm_num [pyEq, decNumEq]
  · set m := normalizeDec c e with hm
    obtain ⟨h1, h2⟩ := normalizeDec_spec c e h0
    rw [← hm] at h1 h2
    by_cases hneg : m.2 < 0
    · rw [if_pos hneg, pyEq, decNumEq, beq_iff_eq, min_eq_right h1]
      rw [sub_self]
      norm_num
      exact h2.symm
    · rw [if_neg hneg, pyEq, decNumEq, beq_iff_eq]
      by_cases he : 0 ≤ e
      · rw [min_eq_left he, sub_self]
        norm_num
        have hexp : (m.2 - e).toNat + e.toNat = m.2.toNat := by omega
        rw [h2, mul_assoc, ← pow_add, hexp]
      · have he2 : e ≤ (0 : Int) := by omega
        rw [min_eq_right he2, sub_self]
        norm_num
        have hexp : m.2.toNat + (-e).toNat = (m.2 - e).toNat := by omega
        rw [h2, mul_assoc, ← pow_add, hexp]

mutual

/-- A decoded value is Python-`==` to the value that was encoded. -/
theorem pyEq_decodedValue (v : PyValue) :
    wfValue v = true → pyEq (decodedValue v) v = true := by
  cases v with
  | str s => intro _; rw [decodedValue, pyEq]; simp
  | int n => intro _; rw [decodedValue, pyEq]; simp
  | dec c e => intro _; exact decodedValue_dec_pyEq c e
  | time t => intro _; rw [decodedValue, pyEq]; simp
  | table xs =>
      intro h
      rw [wfValue] at h
      rw [decodedValue, pyEq]
      exact pyEqEntries_decodedTable xs h
  | arr vs =>
      intro h
      rw [wfValue] at h
      rw [decodedValue, pyEq]
      exact pyEqItems_decodedItems vs h
  termination_by sizeOf v

/-- Entry lists decode Python-equal, keys preserved exactly. -/
theorem pyEqEntries_decodedTable (xs : List (List Nat × PyValue)) :
    wfEntries xs = true → pyEqEntries (decodedTable xs) xs = true := by
  cases xs with
  | nil => intro _; rw [decodedTable, pyEqEntries]
  | cons kv tl =>
      obtain ⟨k, v⟩ := kv
      intro h
      rw [wfEntries, Bool.and_eq_true] at h
      rw [decodedTable, pyEqEntries, Bool.and_eq_true, Bool.and_eq_true]
      exact ⟨⟨by simp, pyEq_decodedValue v h.1⟩, pyEqEntries_decodedTable tl h.2⟩
  termination_by sizeOf xs

/-- Array element lists decode Python-equal. -/
theorem pyEqItems_decodedItems (vs : List PyValue) :
    wfItems vs = true → pyEqItems (decodedItems vs) vs = true := by
  cases vs with
  | nil => intro _; rw [decodedItems, pyEqItems]
  | cons v tl =>
      intro h
      rw [wfItems, Bool.and_eq_true] at h
      rw [decodedItems, pyEqItems, Bool.and_eq_true]
      exact ⟨pyEq_decodedValue v h.1, pyEqItems_decodedItems tl h.2⟩
  termination_by sizeOf vs

end

/-! ### Claims C1 and C9: the field-table round-trip law -/

/-- A sample table exercising all six required kinds: a long string, an
integer, a decimal (0.5), a timestamp (2020-01-01T00:00:00Z), a nested
table, and an array of tables. -/
def sampleTable : List (List Nat × PyValue) :=
  [([97], .str [104, 105]),
   ([98], .int 1000),
   ([99], .dec 5 (-1)),
   ([100], .time 1577836800),
   ([101], .table [([120], .str [121])]),
   ([102], .arr [.table []])]

/-- C1, counterexample: the table `{"k": Decimal("-0.5")}` (key `k` =
byte 107, normalized decimal coefficient −5, exponent −1) encodes
successfully — the coefficient is packed signed two's complement — but
decodes through the unsigned `>I` read to `Decimal("429496729.1")`,
which is not Python-equal to `Decimal("-0.5")`, so
`decode_table(encode_table(T)) ≠ T`. -/
theorem C1_roundtrip_counterexample :
    encode_table [([107], PyValue.dec (-5) (-1))] =
      some [0, 0, 0, 8, 1, 107, 68, 1, 255, 255, 255, 251] ∧
    decode_table [0, 0, 0, 8, 1, 107, 68, 1, 255, 255, 255, 251] 0 =
      some ([([107], PyValue.dec 4294967291 (-1))], 12) ∧
    pyEq (PyValue.dec 4294967291 (-1)) (PyValue.dec (-5) (-1)) = false := by
  refine ⟨?_, rfl, ?_⟩
  · simp [encode_table, encodeEntries, encodeValue, packU8, packU32, packI32,
      u32be, normalizeDec]
  · norm_num [pyEq, decNumEq]

/-- C1, amended: for every field table (distinct short-string keys) whose
values are drawn from the six required kinds, IF the encoder accepts it
(keys ≤ 255 bytes; integers in [0, 2^32); decimal scale ≤ 255 and
mantissa in signed-32-bit range; timestamps in [0, 2^64); array
elements themselves tables) AND every decimal has a non-negative
normalized coefficient AND every timestamp is before the year 10000,
THEN `decode_table` after `encode_table` succeeds, consumes the whole
encoding, and yields an entry list pointwise Python-equal to the
original — hence, keys being distinct and in the same order, a mapping
Python-equal to the original dict. -/
theorem C1_roundtrip (xs : List (List Nat × PyValue)) (B : List Nat)
    (henc : encode_table xs = some B) (hwf : wfEntries xs = true) :
    decode_table B 0 = some (decodedTable xs, B.length) ∧
      pyEqEntries (decodedTable xs) xs = true :=
  ⟨decode_table_encode_table henc hwf, pyEqEntries_decodedTable xs hwf⟩

/-- C1, witness: the six-kind sample table round-trips. -/
theorem C1_roundtrip_witness :
    decode_table ((encode_table sampleTable).getD []) 0 =
      some (decodedTable sampleTable,
        ((encode_table sampleTable).getD []).length) ∧
      pyEqEntries (decodedTable sampleTable) sampleTable = true :=
  C1_roundtrip sampleTable ((encode_table sampleTable).getD [])
    (by simp [sampleTable, encode_table, encodeEntries, encodeValue,
      encodeItems, packU8, packU32, packI32, packU64, u32be, u64be,
      normalizeDec])
    (by simp [sampleTable, wfEntries, wfValue, wfItems, normalizeDec])

/-- C9, counterexample: `encode_table` packs an integer with the
unsigned format `>I`, so encoding `{"k": -1}` raises
`struct.error` rather than producing the signed representation, and
`decode_table` reads tag `I` as unsigned: the bytes that would carry
−1 in two's complement decode to 4294967295. -/
theorem C9_signed_counterexample :
    encode_table [([107], PyValue.int (-1))] = none ∧
    decode_table [0, 0, 0, 7, 1, 107, 73, 255, 255, 255, 255] 0 =
      some ([([107], PyValue.int 4294967295)], 11) := by
  refine ⟨?_, rfl⟩
  simp [encode_table, encodeEntries, encodeValue, packU8, packU32, u32be]

/-- C9, amended: the field-table codec represents an integer under tag
`I` as an UNSIGNED big-endian 32-bit integer on both encode and decode;
every integer in [0, 2^32) round-trips to an equal integer. -/
theorem C9_unsigned_int_roundtrip (k : List Nat) (n : Int)
    (hk : k.length ≤ 255) (h0 : 0 ≤ n) (h1 : n < 4294967296) :
    ∃ B, encode_table [(k, PyValue.int n)] = some B ∧
      decode_table B 0 = some ([(k, PyValue.int n)], B.length) := by
  have hv : encodeValue (.int n) = some (73 :: u32be n.toNat) := by
    rw [encodeValue, packU32, if_pos ⟨h0, h1⟩]
    rfl
  have he : encodeEntries [(k, .int n)] =
      some ([k.length] ++ k ++ (73 :: u32be n.toNat) ++ []) := by
    rw [encodeEntries, packU8, if_pos hk, Option.some_bind, hv,
      Option.some_bind, encodeEntries, Option.map_some']
  have hlen : ([k.length] ++ k ++ (73 :: u32be n.toNat) ++ []).length =
      6 + k.length := by
    simp [u32be_length]
    omega
  have hB : encode_table [(k, .int n)] =
      some (u32be (6 + k.length) ++
        ([k.length] ++ k ++ (73 :: u32be n.toNat) ++ [])) := by
    rw [encode_table, he, Option.some_bind, hlen, packU32,
      if_pos (by constructor <;> omega), Option.map_some']
    congr 1
  refine ⟨_, hB, ?_⟩
  have hdec := decode_table_encode_table hB
    (by simp [wfEntries, wfValue])
  rw [decodedTable, decodedValue, decodedTable] at hdec
  exact hdec

/-- C9, witness: the singleton table with integer 5 under key byte 107
round-trips through the unsigned representation. -/
theorem C9_unsigned_int_roundtrip_witness :
    ∃ B, encode_table [([107], PyValue.int 5)] = some B ∧
      decode_table B 0 = some ([([107], PyValue.int 5)], B.length) :=
  C9_unsigned_int_roundtrip [107] 5 (by simp) (by norm_num) (by norm_num)

/-! ### Content fragmentation (src/pika/connection.py, send_method) -/

/-- Modelled from the spec: `codec.ConnectionState.HEADER_SIZE`
(pika/codec.py is not under src/) — §4.5: header_overhead = 7 (1-byte
type, 2-byte channel, 4-byte length). -/
def HEADER_SIZE : Int := 7

/-- Modelled from the spec: `codec.ConnectionState.FOOTER_SIZE`
(pika/codec.py is not under src/) — §4.5: footer_overhead = 1 (the
0xCE end marker). -/
def FOOTER_SIZE : Int := 1

/-- `CHANNEL_MAX` module constant (connection.py line 64). -/
def CHANNEL_MAX : Nat := 32767

/-- `FRAME_MAX` module constant (connection.py line 65). -/
def FRAME_MAX : Nat := 131072

/-- The `max_piece` computation of `send_method` (connection.py lines
667-669); Python subtraction can go negative, hence `Int`. -/
def max_piece (frame_max : Nat) : Int :=
  (frame_max : Int) - HEADER_SIZE - FOOTER_SIZE

/-- The body-splitting loop of `send_method` (lines 670-675): while the
buffer is non-empty, take `piece_len = min(len(body_buf), max_piece)`
bytes and emit them.  For `maxPiece ≤ 0` with a non-empty body the
source passes a nonpositive size to the buffer read and never makes
progress (see C8); the claims evaluate this function only for
`frame_max ≥ 9`, i.e. `maxPiece ≥ 1`, where the loop is faithful. -/
def fragments (maxPiece : Int) (body : List Nat) : List (List Nat) :=
  if body = [] then []
  else if maxPiece ≤ 0 then []
  else
    let pieceLen := min body.length maxPiece.toNat
    body.take pieceLen :: fragments maxPiece (body.drop pieceLen)
  termination_by body.length
  decreasing_by
    rename_i hbody hmp
    have hb : 0 < body.length := List.length_pos.mpr hbody
    have hm : 0 < maxPiece.toNat := by omega
    simp only [List.length_drop]
    omega

/-- The lengths of the pieces `fragments` produces, as a function of the
body length alone. -/
def chunkLens (maxPiece : Int) (L : Nat) : List Nat :=
  if L = 0 then []
  else if maxPiece ≤ 0 then []
  else
    let p := min L maxPiece.toNat
    p :: chunkLens maxPiece (L - p)
  termination_by L
  decreasing_by
    rename_i hL hmp
    have hm : 0 < maxPiece.toNat := by omega
    omega

/-- The AMQP method payloads the claims mention; `generic` stands for
any other `(class_id, method_id)` pair of the closed sum. -/
inductive Method where
  | connStartOk (mechanism : String) (response : String)
  | connTuneOk (channel_max frame_max heartbeat : Nat)
  | connOpen (virtual_host : String) (insist : Bool)
  | connClose (reply_code : Nat) (reply_text : String) (class_id method_id : Nat)
  | connCloseOk
  | generic (class_id method_id : Nat)
deriving DecidableEq

/-- A content-properties object (`spec.BasicProperties`); its fields do
not matter to the claims, only whether one is present. -/
inductive Props where
  | mk
deriving DecidableEq

/-- The `content` argument of `send_method` (line 643): absent, a bare
body, or a `(properties, body)` tuple — the source tests
`isinstance(content, tuple)`. -/
inductive Content where
  | none
  | plain (body : List Nat)
  | tup (props : Option Props) (body : List Nat)

/-- The frames `send_method` can emit: the method frame, the content
header (`FrameHeader`), and body fragments (`FrameBody`). -/
inductive OutFrame where
  | method (channel : Nat) (m : Method)
  | header (channel : Nat) (body_size : Nat) (props : Props)
  | body (channel : Nat) (fragment : List Nat)
deriving DecidableEq

/-- `props = content[0] if isinstance(content, tuple) else None`. -/
def contentProps : Content → Option Props
  | .tup p _ => p
  | _ => Option.none

/-- `body = content[1] if isinstance(content, tuple) else content`,
with Python's falsy `None`/empty cases collapsed to `[]`. -/
def contentBody : Content → List Nat
  | .none => []
  | .plain b => b
  | .tup _ b => b

/-- `Connection.send_method` (connection.py lines 643-675) as the list
of frames it emits, in order: the method frame; a header frame iff
properties are present, carrying `len(body)` (0 when there is no
body); then the body split into `FrameBody` fragments of at most
`max_piece` bytes. -/
def send_method (frame_max : Nat) (channel : Nat) (m : Method)
    (content : Content) : List OutFrame :=
  [OutFrame.method channel m]
    ++ (match contentProps content with
        | some p => [OutFrame.header channel (contentBody content).length p]
        | Option.none => [])
    ++ (fragments (max_piece frame_max) (contentBody content)).map
        (OutFrame.body channel)

/-- `Connection.suggested_buffer_size` (connection.py lines 677-685). -/
def suggested_buffer_size (frame_max : Nat) : Nat :=
  if frame_max = 0 then FRAME_MAX else frame_max

theorem fragments_join (maxPiece : Int) (hmp : 1 ≤ maxPiece) (body : List Nat) :
    (fragments maxPiece body).join = body := by
  induction body using fragments.induct maxPiece with
  | case1 => rw [fragments]; simp
  | case2 x hbody hle => omega
  | case3 x hbody hle pieceLen ih =>
      rw [fragments, if_neg hbody, if_neg hle]
      show (List.take pieceLen x :: fragments maxPiece (List.drop pieceLen x)).join = x
      rw [show (List.take pieceLen x :: fragments maxPiece (List.drop pieceLen x)).join
          = List.take pieceLen x ++ (fragments maxPiece (List.drop pieceLen x)).join
          from rfl, ih]
      exact List.take_append_drop _ x

theorem fragments_le (maxPiece : Int) (body : List Nat) :
    ∀ f ∈ fragments maxPiece body, f.length ≤ maxPiece.toNat := by
  induction body using fragments.induct maxPiece with
  | case1 => rw [fragments]; simp
  | case2 x hbody hle => rw [fragments, if_neg hbody, if_pos hle]; simp
  | case3 x hbody hle pieceLen ih =>
      rw [fragments, if_neg hbody, if_neg hle]
      show ∀ f ∈ List.take pieceLen x :: fragments maxPiece (List.drop pieceLen x),
        f.length ≤ maxPiece.toNat
      intro f hf
      rcases List.mem_cons.mp hf with hh | ht
      · subst hh
        simp only [List.length_take]
        have hp : pieceLen = min x.length maxPiece.toNat := rfl
        omega
      · exact ih f ht

theorem fragments_map_length (maxPiece : Int) (body : List Nat) :
    (fragments maxPiece body).map List.length = chunkLens maxPiece body.length := by
  induction body using fragments.induct maxPiece with
  | case1 => rw [fragments, chunkLens]; simp
  | case2 x hbody hle =>
      rw [fragments, if_neg hbody, if_pos hle, chunkLens,
        if_neg (by simpa using hbody), if_pos hle]
      rfl
  | case3 x hbody hle pieceLen ih =>
      rw [fragments, if_neg hbody, if_neg hle, chunkLens,
        if_neg (by simpa using hbody), if_neg hle]
      show (List.take pieceLen x :: fragments maxPiece (List.drop pieceLen x)).map
          List.length = min x.length maxPiece.toNat ::
            chunkLens maxPiece (x.length - min x.length maxPiece.toNat)
      simp only [List.map_cons, List.length_take]
      rw [ih]
      simp only [List.length_drop]
      have h1 : pieceLen ⊓ x.length = x.length ⊓ maxPiece.toNat := by
        have hp : pieceLen = x.length ⊓ maxPiece.toNat := rfl
        omega
      rw [h1]

theorem chunkLens_succ (d : Int) (L : Nat) (hd : 0 < d) (hL : L ≠ 0) :
    chunkLens d L = min L d.toNat :: chunkLens d (L - min L d.toNat) := by
  rw [chunkLens, if_neg hL, if_neg (by omega)]

theorem chunkLens_count (d : Nat) (hd : 0 < d) (L : Nat) :
    (chunkLens (d : Int) L).length = (L + d - 1) / d := by
  induction L using Nat.strong_induction_on with
  | _ L ih =>
      by_cases hL : L = 0
      · subst hL
        rw [chunkLens, if_pos rfl]
        simp only [List.length_nil]
        rw [Nat.div_eq_of_lt (by omega)]
      · rw [chunkLens, if_neg hL, if_neg (by omega)]
        have htn : ((d : Int)).toNat = d := by omega
        rw [htn]
        simp only [List.length_cons]
        by_cases hcase : L ≤ d
        · have hmin : min L d = L := by omega
          rw [hmin, Nat.sub_self, chunkLens, if_pos rfl]
          simp only [List.length_nil]
          have h1 : 1 ≤ (L + d - 1) / d :=
            (Nat.le_div_iff_mul_le hd).mpr (by omega)
          have h2 : (L + d - 1) / d < 2 :=
            (Nat.div_lt_iff_lt_mul hd).mpr (by omega)
          omega
        · have hmin : min L d = d := by omega
          rw [hmin, ih (L - d) (by omega)]
          have hL1 : L + d - 1 = ((L - d) + d - 1) + d := by omega
          rw [hL1, Nat.add_div_right _ hd]

/-- C2: with a negotiated `frame_max ≥ 9` and content `(props, body)`,
`send_method` emits the method frame, one header frame carrying
`len(body)`, and the body split into exactly
`⌈len(body) / (frame_max − 8)⌉` body frames whose fragments are each at
most `frame_max − 8` bytes and concatenate, in order, to the body; the
fragment lengths are `chunkLens (frame_max − 8) len(body)`. -/
theorem C2_fragmentation (frame_max : Nat) (h9 : 9 ≤ frame_max)
    (channel : Nat) (m : Method) (p : Props) (body : List Nat) :
    send_method frame_max channel m (.tup (some p) body) =
      [OutFrame.method channel m, OutFrame.header channel body.length p]
        ++ (fragments (max_piece frame_max) body).map (OutFrame.body channel)
    ∧ (fragments (max_piece frame_max) body).length =
        (body.length + (frame_max - 8) - 1) / (frame_max - 8)
    ∧ (∀ f ∈ fragments (max_piece frame_max) body, f.length ≤ frame_max - 8)
    ∧ (fragments (max_piece frame_max) body).join = body
    ∧ (fragments (max_piece frame_max) body).map List.length =
        chunkLens (max_piece frame_max) body.length := by
  have hmp : max_piece frame_max = ((frame_max - 8 : Nat) : Int) := by
    rw [max_piece, HEADER_SIZE, FOOTER_SIZE]
    omega
  have htn : (max_piece frame_max).toNat = frame_max - 8 := by
    rw [hmp]; omega
  refine ⟨rfl, ?_, ?_, ?_, fragments_map_length _ _⟩
  · have := chunkLens_count (frame_max - 8) (by omega) body.length
    rw [← hmp] at this
    rw [← this, ← fragments_map_length, List.length_map]
  · intro f hf
    have := fragments_le (max_piece frame_max) body f hf
    omega
  · exact fragments_join _ (by rw [hmp]; omega) body

/-- C2, witness: with `frame_max = 4096` and a 10000-byte body the
engine emits 1 method frame, 1 header frame and 3 body frames of
sizes 4088, 4088, 1824. -/
theorem C2_fragmentation_witness :
    (fragments (max_piece 4096) (List.replicate 10000 0)).map List.length =
      [4088, 4088, 1824]
    ∧ (fragments (max_piece 4096) (List.replicate 10000 0)).length = 3
    ∧ send_method 4096 1 (.generic 60 40) (.tup (some .mk) (List.replicate 10000 0)) =
        [OutFrame.method 1 (.generic 60 40), OutFrame.header 1 10000 .mk]
          ++ (fragments (max_piece 4096) (List.replicate 10000 0)).map
              (OutFrame.body 1) := by
  obtain ⟨hshape, hcount, hle, hjoin, hlens⟩ :=
    C2_fragmentation 4096 (by norm_num) 1 (.generic 60 40) .mk
      (List.replicate 10000 0)
  have hmp : max_piece 4096 = (4088 : Int) := by
    norm_num [max_piece, HEADER_SIZE, FOOTER_SIZE]
  refine ⟨?_, ?_, ?_⟩
  · rw [hlens, List.length_replicate, hmp]
    have ht : Int.toNat (4088 : Int) = 4088 := rfl
    rw [chunkLens_succ (4088 : Int) 10000 (by norm_num) (by norm_num), ht]
    norm_num
    rw [chunkLens_succ (4088 : Int) 5912 (by norm_num) (by norm_num), ht]
    norm_num
    rw [chunkLens_succ (4088 : Int) 1824 (by norm_num) (by norm_num), ht]
    norm_num
    rw [chunkLens, if_pos rfl]
  · rw [hcount, List.length_replicate]
  · rw [List.length_replicate] at hshape
    exact hshape

/-- C8: `send_method` computes `max_piece` directly from
`state.frame_max` with no default: with `frame_max = 0` it is
`0 − 7 − 1 = −8`, not the `131072 − 8 = 131064` the documented default
would give; the 131072 default exists only in
`suggested_buffer_size`, which `send_method` does not consult. -/
theorem C8_fragmentation_ignores_default :
    max_piece 0 = -8
    ∧ suggested_buffer_size 0 = 131072
    ∧ max_piece (suggested_buffer_size 0) = 131064
    ∧ max_piece 0 ≠ max_piece (suggested_buffer_size 0) := by
  refine ⟨rfl, rfl, rfl, by decide⟩

/-! ### Tune negotiation (src/pika/connection.py lines 376-417) -/

/-- `Connection._combine` (connection.py lines 376-385); Python's
`not a` on an integer is `a == 0`. -/
def combine (a b : Nat) : Nat :=
  if a = 0 then b else if b = 0 then a else min a b

/-- The negotiation rule in the spec's own words (§4.4): the server
value when the client value is 0, the client value when the server
value is 0, and the minimum otherwise.  Stated separately from the
source's `combine` so the two can be compared. -/
def combine_spec (client server : Nat) : Nat :=
  if client = 0 then server
  else if server = 0 then client
  else min client server

/-- The three tunable parameters, both as client `ConnectionParameters`
(lines 73-90) and as the fields of the server's `Connection.Tune`. -/
structure TuneParams where
  channel_max : Nat
  frame_max : Nat
  heartbeat : Nat
deriving DecidableEq

/-- The negotiated limits of `codec.ConnectionState`. -/
structure ConnectionState where
  channel_max : Nat
  frame_max : Nat
deriving DecidableEq

/-- Modelled from the spec: `codec.ConnectionState.tune` (pika/codec.py
is not under src/) — §3 has the state record the negotiated limits and
§4.4 has a non-zero `frame_max` below 4096 "accepted but clamped
upward silently". -/
def ConnectionState.tune (cmax fmax : Nat) : ConnectionState :=
  { channel_max := cmax,
    frame_max := if fmax = 0 then 0 else max 4096 fmax }

/-- `Connection._on_connection_tune` (connection.py lines 387-417):
negotiate each parameter with `combine`, create a heartbeat checker
when the negotiated interval is non-zero, update the state via `tune`,
then send `Connection.TuneOk` — built from the negotiated, unclamped
values — followed by the `Connection.Open` RPC.  Returns the state,
the heartbeat interval (if any), and the emitted channel-0 methods. -/
def on_connection_tune (params server : TuneParams) (virtual_host : String) :
    ConnectionState × Option Nat × List (Nat × Method) :=
  let cmax := combine params.channel_max server.channel_max
  let fmax := combine params.frame_max server.frame_max
  let hint := combine params.heartbeat server.heartbeat
  (ConnectionState.tune cmax fmax,
   if hint ≠ 0 then some hint else Option.none,
   [(0, Method.connTuneOk cmax fmax hint),
    (0, Method.connOpen virtual_host true)])

/-- C3: on Connection.Tune, each negotiated parameter is
`combine(client, server)`; `combine` is exactly the spec's rule
(server when client is 0, client when server is 0, else the minimum);
and the emitted TuneOk carries exactly the three negotiated values. -/
theorem C3_tune_negotiation (params server : TuneParams) (vh : String) :
    (∀ a b : Nat, combine a b = combine_spec a b)
    ∧ (on_connection_tune params server vh).2.2 =
        [(0, Method.connTuneOk
            (combine params.channel_max server.channel_max)
            (combine params.frame_max server.frame_max)
            (combine params.heartbeat server.heartbeat)),
         (0, Method.connOpen vh true)] :=
  ⟨fun a b => rfl, rfl⟩

/-- C7, counterexample: a client `frame_max` of 1000 against the
server's 131072 negotiates to 1000, and the emitted TuneOk carries
1000 — below 4096. -/
theorem C7_tuneok_echoes_unclamped :
    (on_connection_tune ⟨0, 1000, 0⟩ ⟨0, 131072, 60⟩ "/").2.2.head? =
      some (0, Method.connTuneOk 0 1000 60)
    ∧ ¬(4096 ≤ 1000) :=
  ⟨rfl, by norm_num⟩

/-- C7, amended: when the negotiated `frame_max` is non-zero, the value
recorded in the connection state is clamped upward to at least 4096
(per the spec-modelled `ConnectionState.tune`), but the TuneOk emitted
by `_on_connection_tune` echoes the unclamped negotiated value, which
may be below 4096. -/
theorem C7_frame_max_clamp (params server : TuneParams) (vh : String)
    (hnz : combine params.frame_max server.frame_max ≠ 0) :
    4096 ≤ (on_connection_tune params server vh).1.frame_max
    ∧ (on_connection_tune params server vh).1.frame_max =
        max 4096 (combine params.frame_max server.frame_max)
    ∧ (on_connection_tune params server vh).2.2.head? =
        some (0, Method.connTuneOk
          (combine params.channel_max server.channel_max)
          (combine params.frame_max server.frame_max)
          (combine params.heartbeat server.heartbeat)) := by
  refine ⟨?_, ?_, rfl⟩
  · show 4096 ≤ (ConnectionState.tune _ _).frame_max
    rw [ConnectionState.tune]
    simp only [if_neg hnz]
    exact le_max_left _ _
  · show (ConnectionState.tune _ _).frame_max = _
    rw [ConnectionState.tune]
    simp only [if_neg hnz]

/-- C7, witness: client 1000 / server 131072 negotiates 1000 ≠ 0; the
state records 4096 while the TuneOk echoes 1000. -/
theorem C7_frame_max_clamp_witness :
    4096 ≤ (on_connection_tune ⟨0, 1000, 0⟩ ⟨0, 131072, 60⟩ "/").1.frame_max
    ∧ (on_connection_tune ⟨0, 1000, 0⟩ ⟨0, 131072, 60⟩ "/").1.frame_max =
        max 4096 (combine 1000 131072)
    ∧ (on_connection_tune ⟨0, 1000, 0⟩ ⟨0, 131072, 60⟩ "/").2.2.head? =
        some (0, Method.connTuneOk (combine 0 0) (combine 1000 131072)
          (combine 0 60)) :=
  C7_frame_max_clamp ⟨0, 1000, 0⟩ ⟨0, 131072, 60⟩ "/" (by decide)

/-! ### Channel allocation (src/pika/connection.py lines 502-539) -/

/-- `Connection._next_channel_number` (connection.py lines 520-539):
`limit = self.state.channel_max or CHANNEL_MAX`; raise `NoFreeChannels`
(`none`) when `len(self._channels) == limit`; return 1 when there are
no channels, else `max(channel_numbers) + 1`.  The `_channels` dict's
key set is a `Finset Nat`. -/
def next_channel_number (channel_max : Nat) (channels : Finset Nat) :
    Option Nat :=
  let limit := if channel_max = 0 then CHANNEL_MAX else channel_max
  if channels.card = limit then Option.none
  else if channels = ∅ then some 1
  else some ((channels.max.getD 0) + 1)

/-- `Connection.channel` (connection.py lines 502-518): a falsy
`channel_number` argument (`None` or 0) triggers automatic allocation;
any other caller-supplied number is used unvalidated.  Returns the new
`_channels` key set. -/
def channel_op (channel_max : Nat) (channels : Finset Nat)
    (channel_number : Option Nat) : Option (Finset Nat) :=
  let picked : Option Nat :=
    match channel_number with
    | Option.none => next_channel_number channel_max channels
    | some n =>
        if n = 0 then next_channel_number channel_max channels else some n
  picked.map (fun n => insert n channels)

/-- C5: automatic allocation raises `NoFreeChannels` exactly when the
channel count equals the limit (`channel_max`, read as 32767 when 0);
otherwise it returns 1 on an empty channel set and `max + 1` otherwise;
in particular with `channel_max = 2` and channels `{1, 2}` it raises. -/
theorem C5_next_channel_number (channel_max : Nat) (channels : Finset Nat) :
    (channels.card = (if channel_max = 0 then 32767 else channel_max) →
      next_channel_number channel_max channels = Option.none)
    ∧ (channels.card ≠ (if channel_max = 0 then 32767 else channel_max) →
        next_channel_number channel_max channels =
          some (if channels = ∅ then 1 else (channels.max.getD 0) + 1))
    ∧ next_channel_number 2 ({1, 2} : Finset Nat) = Option.none := by
  refine ⟨?_, ?_, by decide⟩
  · intro h
    rw [next_channel_number]
    simp only [CHANNEL_MAX]
    rw [if_pos h]
  · intro h
    rw [next_channel_number]
    simp only [CHANNEL_MAX]
    rw [if_neg h]
    by_cases he : channels = ∅
    · rw [if_pos he, if_pos he]
    · rw [if_neg he, if_neg he]

/-- C5, witness: with `channel_max = 2`, allocation on `{1, 2}` raises
`NoFreeChannels` and allocation on `{2}` returns `max + 1 = 3`. -/
theorem C5_next_channel_number_witness :
    next_channel_number 2 ({1, 2} : Finset Nat) = Option.none
    ∧ next_channel_number 2 ({2} : Finset Nat) = some 3 := by
  constructor
  · exact (C5_next_channel_number 2 {1, 2}).1 (by decide)
  · have h := (C5_next_channel_number 2 {2}).2.1 (by decide)
    rw [h]
    decide

/-- C6, counterexample: with `channel_max = 2`, automatic allocation on
the channel set `{2}` returns 3 ∉ [1, 2], and `channel()` inserts a
caller-supplied 50 into `_channels` without any validation. -/
theorem C6_channel_bound_counterexample :
    next_channel_number 2 ({2} : Finset Nat) = some 3 ∧ ¬(3 ≤ 2)
    ∧ channel_op 2 ({1, 2} : Finset Nat) (some 50) =
        some (insert 50 ({1, 2} : Finset Nat))
    ∧ ¬(50 ≤ 2) := by
  refine ⟨by decide, by norm_num, by decide, by norm_num⟩

/-- C6, amended: the `[1, channel_max]` bound is not an invariant of
`_channels` in general — `channel()` inserts caller-supplied numbers
unvalidated and `max + 1` allocation can exceed `channel_max` once the
used numbers are not contiguous from 1.  What holds: when every
existing number lies in `[1, channel_max]`, the maximum is below
`channel_max`, and the count check passes, automatic allocation adds
`max + 1` and every number of the new set is again in
`[1, channel_max]`. -/
theorem C6_channel_bound_preserved (channel_max n : Nat)
    (channels : Finset Nat) (hnz : channel_max ≠ 0)
    (hcard : channels.card ≠ channel_max) (hne : channels ≠ ∅)
    (hmax : channels.max.getD 0 = n) (hlt : n < channel_max)
    (hall : ∀ c ∈ channels, 1 ≤ c ∧ c ≤ channel_max) :
    channel_op channel_max channels Option.none =
      some (insert (n + 1) channels)
    ∧ ∀ c ∈ insert (n + 1) channels, 1 ≤ c ∧ c ≤ channel_max := by
  constructor
  · show (next_channel_number channel_max channels).map _ = _
    rw [next_channel_number]
    simp only [if_neg hnz]
    rw [if_neg hcard, if_neg hne, hmax]
    rfl
  · intro c hc
    rcases Finset.mem_insert.mp hc with hh | hmem
    · subst hh
      exact ⟨by omega, by omega⟩
    · exact hall c hmem

/-- C6, witness: with `channel_max = 5` and channels `{1, 2}`,
automatic allocation adds 3 and all numbers stay within `[1, 5]`. -/
theorem C6_channel_bound_preserved_witness :
    channel_op 5 ({1, 2} : Finset Nat) Option.none =
      some (insert 3 ({1, 2} : Finset Nat))
    ∧ ∀ c ∈ insert 3 ({1, 2} : Finset Nat), 1 ≤ c ∧ c ≤ 5 :=
  C6_channel_bound_preserved 5 2 {1, 2} (by decide) (by decide) (by decide)
    (by decide) (by decide) (by decide)

/-! ### Connection close (src/pika/connection.py lines 419-488) -/

/-- The `self.closing` attribute: `False`, or the `(code, text)` pair
set by `close`. -/
inductive Closing where
  | no
  | yes (code : Nat) (text : String)
deriving DecidableEq

/-- The connection flags and channel set that drive the close path
(`self.open`, `self.closed`, `self.closing`, `self._channels`). -/
structure ConnSM where
  isOpen : Bool
  closed : Bool
  closing : Closing
  channels : Finset Nat
deriving DecidableEq

/-- The externally visible effects of the close path: callback-registry
operations (pika/callback.py is not under src/; modelled from spec
§4.3 as add/remove/process effects), emitted channel-0 methods,
per-channel `Channel.close` calls (pika/channel.py is not under src/;
per spec §4.4 remote close "close all channels"), and the transport
`disconnect()` request. -/
inductive Emit where
  | removeCallback (channel : Nat) (key : String)
  | registerCallback (channel : Nat) (key : String)
  | method (channel : Nat) (m : Method)
  | channelClose (channel : Nat) (code : Nat) (text : String)
  | processCallbacks (channel : Nat) (key : String)
  | disconnect
deriving DecidableEq

/-- `Connection._on_close_ready` (connection.py lines 447-462): unless
already closed, RPC `Connection.Close(closing[0], closing[1], 0, 0)`
expecting `Connection.CloseOk`: register the one-shot CloseOk callback,
then send the Close method frame.  (With `closing = no` the source
would raise a TypeError subscripting `False`; `close` never calls it
in that state, and the embedding emits nothing there.) -/
def on_close_ready (st : ConnSM) : ConnSM × List Emit :=
  if st.closed then (st, [])
  else
    match st.closing with
    | .no => (st, [])
    | .yes code text =>
        (st, [Emit.registerCallback 0 "Connection.CloseOk",
              Emit.method 0 (Method.connClose code text 0 0)])

/-- `Connection.close` (connection.py lines 419-445): a warning-only
no-op when already closing or closed; otherwise record `(code, text)`
in `closing`, remove the reconnection-strategy callback (under the
source's literal key string), call `close(code, text)` on every
channel, and when no channels remain go straight to
`_on_close_ready`. -/
def close_conn (st : ConnSM) (code : Nat) (text : String) : ConnSM × List Emit :=
  if st.closing ≠ Closing.no ∨ st.closed = true then (st, [])
  else
    let st1 := { st with closing := Closing.yes code text }
    let chEmits := (st1.channels.sort (· ≤ ·)).map
      (fun n => Emit.channelClose n code text)
    let pre := [Emit.removeCallback 0 "_on_connection_close"]
    if st1.channels = ∅ then
      let r := on_close_ready st1
      (r.1, pre ++ chEmits ++ r.2)
    else (st1, pre ++ chEmits)

/-- `Connection._on_remote_close` (connection.py lines 482-488): on a
server-initiated `Connection.Close`, call `self.close(reply_code,
reply_text)`. -/
def on_remote_close (st : ConnSM) (reply_code : Nat) (reply_text : String) :
    ConnSM × List Emit :=
  close_conn st reply_code reply_text

/-- `Connection._on_connection_closed` (connection.py lines 464-480)
with `from_adapter = False`: set closed, clear `closing` and `open`,
process the registered close callbacks — passing the connection object
itself, the `(code, text)` having just been discarded — and call
`self.disconnect()`. -/
def on_connection_closed (st : ConnSM) : ConnSM × List Emit :=
  ({ st with closed := true, closing := Closing.no, isOpen := false },
   [Emit.processCallbacks 0 "_on_connection_closed", Emit.disconnect])

/-- C4, counterexample: in the Open state with no channels, receiving
`Connection.Close(320, "CONNECTION_FORCED")` makes the engine send its
own `Connection.Close` echoing the code and text — it emits no
`Connection.CloseOk`, invokes no close callbacks, and requests no
disconnect at that point. -/
theorem C4_remote_close_counterexample :
    (on_remote_close ⟨true, false, Closing.no, ∅⟩ 320 "CONNECTION_FORCED").2 =
      [Emit.removeCallback 0 "_on_connection_close",
       Emit.registerCallback 0 "Connection.CloseOk",
       Emit.method 0 (Method.connClose 320 "CONNECTION_FORCED" 0 0)]
    ∧ Emit.method 0 Method.connCloseOk ∉
        (on_remote_close ⟨true, false, Closing.no, ∅⟩ 320 "CONNECTION_FORCED").2
    ∧ Emit.disconnect ∉
        (on_remote_close ⟨true, false, Closing.no, ∅⟩ 320 "CONNECTION_FORCED").2 := by
  have hemit : (on_remote_close ⟨true, false, Closing.no, ∅⟩ 320
      "CONNECTION_FORCED").2 =
      [Emit.removeCallback 0 "_on_connection_close",
       Emit.registerCallback 0 "Connection.CloseOk",
       Emit.method 0 (Method.connClose 320 "CONNECTION_FORCED" 0 0)] := by
    show (close_conn ⟨true, false, Closing.no, ∅⟩ 320 "CONNECTION_FORCED").2 = _
    rw [close_conn, if_neg (by simp)]
    simp only [if_pos rfl]
    rw [on_close_ready]
    simp only [Bool.false_eq_true, if_neg]
    rw [Finset.sort_empty]
    rfl
  refine ⟨hemit, ?_, ?_⟩ <;> rw [hemit] <;> simp

/-- C4, amended: on a remote `Connection.Close(code, text)` while open
with no channels, the engine records `(code, text)` in `closing`,
registers for `Connection.CloseOk` and emits `Connection.Close(code,
text, 0, 0)` (never CloseOk); only when the server's CloseOk arrives
does `_on_connection_closed` mark the connection closed, process the
registered close callbacks — with the connection object, the
`(code, text)` pair having been cleared — and request transport
disconnect. -/
theorem C4_remote_close (st : ConnSM) (code : Nat) (text : String)
    (hcl : st.closing = Closing.no) (hncl : st.closed = false)
    (hch : st.channels = ∅) :
    (on_remote_close st code text).2 =
      [Emit.removeCallback 0 "_on_connection_close",
       Emit.registerCallback 0 "Connection.CloseOk",
       Emit.method 0 (Method.connClose code text 0 0)]
    ∧ (on_remote_close st code text).1.closing = Closing.yes code text
    ∧ (on_connection_closed (on_remote_close st code text).1).1.closed = true
    ∧ (on_connection_closed (on_remote_close st code text).1).1.closing =
        Closing.no
    ∧ (on_connection_closed (on_remote_close st code text).1).2 =
        [Emit.processCallbacks 0 "_on_connection_closed", Emit.disconnect] := by
  have hcond : ¬(st.closing ≠ Closing.no ∨ st.closed = true) := by
    rw [hcl, hncl]
    simp
  refine ⟨?_, ?_, rfl, rfl, rfl⟩
  · show (close_conn st code text).2 = _
    rw [close_conn, if_neg hcond]
    simp only [hch, if_pos rfl]
    rw [on_close_ready]
    simp only [hncl, Bool.false_eq_true, if_neg]
    rw [Finset.sort_empty]
    rfl
  · show (close_conn st code text).1.closing = _
    rw [close_conn, if_neg hcond]
    simp only [hch, if_pos rfl]
    rw [on_close_ready]
    simp [hncl]

/-- C4, witness: the amended behavior at the spec's concrete scenario
(Open, no channels, code 320, text "CONNECTION_FORCED"). -/
theorem C4_remote_close_witness :
    (on_remote_close ⟨true, false, Closing.no, ∅⟩ 320 "CONNECTION_FORCED").2 =
      [Emit.removeCallback 0 "_on_connection_close",
       Emit.registerCallback 0 "Connection.CloseOk",
       Emit.method 0 (Method.connClose 320 "CONNECTION_FORCED" 0 0)]
    ∧ (on_remote_close ⟨true, false, Closing.no, ∅⟩ 320
        "CONNECTION_FORCED").1.closing = Closing.yes 320 "CONNECTION_FORCED"
    ∧ (on_connection_closed (on_remote_close ⟨true, false, Closing.no, ∅⟩ 320
        "CONNECTION_FORCED").1).1.closed = true
    ∧ (on_connection_closed (on_remote_close ⟨true, false, Closing.no, ∅⟩ 320
        "CONNECTION_FORCED").1).1.closing = Closing.no
    ∧ (on_connection_closed (on_remote_close ⟨true, false, Closing.no, ∅⟩ 320
        "CONNECTION_FORCED").1).2 =
        [Emit.processCallbacks 0 "_on_connection_closed", Emit.disconnect] :=
  C4_remote_close ⟨true, false, Closing.no, ∅⟩ 320 "CONNECTION_FORCED"
    rfl rfl rfl

/-! ### Byte counters (src/pika/connection.py lines 184-213, 556-633) -/

/-- A decoded wire frame: the protocol header or a typed frame with its
payload (the codec's frame classes). -/
inductive WireFrame where
  | protocolHeader (a b c d : Nat)
  | frame (frame_type channel : Nat) (payload : List Nat)
deriving DecidableEq

/-- Modelled from the spec: the codec's `marshal` (pika/codec.py is not
under src/) — §3/§6: a 1-byte type tag, 2-byte big-endian channel,
4-byte big-endian payload length, the payload, and the 0xCE end
marker; the protocol header is "AMQP" plus four version bytes. -/
def marshal : WireFrame → List Nat
  | .protocolHeader a b c d => [65, 77, 81, 80, a, b, c, d]
  | .frame t ch payload =>
      [t, ch / 256 % 256, ch % 256] ++ u32be payload.length ++ payload ++ [206]

/-- The outbound side of the connection state: `self.bytes_sent` and
`self.outbound_buffer`. -/
structure SendState where
  bytesSent : Nat
  outbound : List Nat
deriving DecidableEq

/-- `Connection._send_frame` (connection.py lines 622-633): marshal the
frame, add its byte length to `bytes_sent`, append it to the outbound
buffer (then flush, a transport concern). -/
def send_frame (st : SendState) (f : WireFrame) : SendState :=
  { bytesSent := st.bytesSent + (marshal f).length,
    outbound := st.outbound ++ marshal f }

/-- Modelled from the spec: `codec.ConnectionState.handle_input`
(pika/codec.py is not under src/) — §4.2: an "AMQP"-prefixed buffer
yields an 8-byte ProtocolHeader frame; otherwise peel a 7-byte header,
require `7 + length + 1` bytes, and validate the 0xCE end marker (a
bad marker is a fatal `FrameError`, modelled as yielding no frame).
Returns `(consumed_count, frame)`, or `none` when no complete frame is
available. -/
def handle_input (data : List Nat) : Option (Nat × WireFrame) :=
  if data.take 4 = [65, 77, 81, 80] then
    match data with
    | _ :: _ :: _ :: _ :: v1 :: v2 :: v3 :: v4 :: _ =>
        some (8, .protocolHeader v1 v2 v3 v4)
    | _ => Option.none
  else
    match data with
    | t :: c1 :: c2 :: l1 :: l2 :: l3 :: l4 :: rest =>
        let len := l1 * 16777216 + l2 * 65536 + l3 * 256 + l4
        if len + 1 ≤ rest.length then
          if rest.getD len 0 = 206 then
            some (7 + len + 1, .frame t (c1 * 256 + c2) (rest.take len))
          else Option.none
        else Option.none
    | _ => Option.none

/-- The inbound side of the connection state: `self.buffer` and
`self.bytes_received`. -/
structure RecvState where
  buffer : List Nat
  bytesReceived : Nat
deriving DecidableEq

/-- The `while data:` loop of `on_data_available` (connection.py lines
571-605), restricted to its buffer and counter effects: each complete
frame advances `bytes_received` by exactly its consumed byte count; an
incomplete remainder goes back into the buffer.  Frame dispatch
(callback processing, channel delivery) touches neither counter except
through `send_frame`.  Fuel bounds the recursion; every iteration
consumes at least one byte, so the caller's fuel is ample. -/
def recv_loop : Nat → Nat → List Nat → Nat × List (Nat × WireFrame) × List Nat
  | 0, br, data => (br, [], data)
  | fuel + 1, br, data =>
      if data = [] then (br, [], [])
      else
        match handle_input data with
        | Option.none => (br, [], data)
        | some (c, f) =>
            let r := recv_loop fuel (br + c) (data.drop c)
            (r.1, (c, f) :: r.2.1, r.2.2)

/-- `Connection.on_data_available` (connection.py lines 556-605): write
the chunk into the read buffer, take the whole buffer, flush it, and
consume complete frames. -/
def on_data_available (st : RecvState) (data : List Nat) :
    RecvState × List (Nat × WireFrame) :=
  let all := st.buffer ++ data
  let r := recv_loop (all.length + 1) st.bytesReceived all
  ({ buffer := r.2.2, bytesReceived := r.1 }, r.2.1)

/-- `Connection._init_connection_state` (connection.py lines 184-213):
fresh buffers and both byte counters reset to 0. -/
def init_connection_state : SendState × RecvState :=
  ({ bytesSent := 0, outbound := [] }, { buffer := [], bytesReceived := 0 })

theorem recv_loop_bytes (fuel : Nat) : ∀ (br : Nat) (data : List Nat),
    (recv_loop fuel br data).1 =
      br + (((recv_loop fuel br data).2.1).map Prod.fst).sum := by
  induction fuel with
  | zero => intro br data; rw [recv_loop]; simp
  | succ f ih =>
      intro br data
      rw [recv_loop]
      by_cases hd : data = []
      · rw [if_pos hd]; simp
      · rw [if_neg hd]
        cases hh : handle_input data with
        | none => simp
        | some cf =>
            obtain ⟨c, fr⟩ := cf
            simp only [List.map_cons, List.sum_cons]
            rw [ih (br + c) (data.drop c)]
            omega

/-- C10: `_send_frame` grows `bytes_sent` by exactly the marshalled
frame's byte length; `on_data_available` grows `bytes_received` by
exactly the sum of the byte counts consumed for the complete frames it
decoded (one count per frame); `_init_connection_state` resets both
counters to 0.  No other modelled operation touches either counter. -/
theorem C10_byte_counters :
    (∀ (st : SendState) (f : WireFrame),
      (send_frame st f).bytesSent = st.bytesSent + (marshal f).length)
    ∧ (∀ (st : RecvState) (data : List Nat),
        (on_data_available st data).1.bytesReceived =
          st.bytesReceived +
            (((on_data_available st data).2).map Prod.fst).sum)
    ∧ init_connection_state.1.bytesSent = 0
    ∧ init_connection_state.2.bytesReceived = 0 := by
  refine ⟨fun st f => rfl, fun st data => ?_, rfl, rfl⟩
  exact recv_loop_bytes _ _ _

end Pika
